import Mathlib

/-!
Verification of the grid-background layout engine of
`src/app/components/grid_background.py` (class `GridManager`).

The Python code is shallowly embedded below.  Python integers are
modelled by `ℤ`, Python lists by `List`, and the `dict`-backed layout
cache by an insertion-ordered association list (Python dicts iterate in
insertion order, and the eviction `del cache[next(iter(cache))]` removes
the first, i.e. oldest-inserted, key).  Python `math.floor(a / b)` and
`a // b` are floor division, `Int.fdiv`; `math.ceil(a / b)` for a
positive divisor is `-((-a).fdiv b)`; `a % b` is `Int.fmod`.  The float
comparison `aspect_ratio > 1.8` is modelled exactly on the rationals
(`w / h > 9 / 5`), and `math.ceil(cols * 1.2)` as the integer ceiling of
`6 * cols / 5`; for the integer magnitudes the engine is used with,
the double-precision evaluation in the source agrees with these exact
values.  Python `round` (ties to even) on `v / 10` is modelled exactly
in `pyRound10`.  Randomness (`random.shuffle`) is modelled by an
oracle `shuffles : ℕ → List String` giving the successive shuffled
copies of the pool; theorems quantify over all oracles that produce
permutations of the pool.  The filesystem scan in `get_cached_images`
is modelled by an explicit `scanResult` parameter.

The `GridManager` field defaults `min_cell_size = 89` and `gap = 5` are
the configuration all claims are about; they are fixed as constants.
-/

namespace GridBG

/-- Python `math.ceil (a / b)` for integers `a` and positive `b`:
the negated floor division of the negation. -/
def ceilDiv (a b : ℤ) : ℤ := -((-a).fdiv b)

/-- Python `round (n / 10)` for an integer `n`: the nearest integer to
`n / 10`, ties going to the even integer (banker rounding). -/
def pyRound10 (n : ℤ) : ℤ :=
  let q := n.fdiv 10
  let r := n.fmod 10
  if r < 5 then q
  else if 5 < r then q + 1
  else if q % 2 = 0 then q else q + 1

/-- GridManager field default `min_cell_size = 89`. -/
def min_cell_size : ℤ := 89

/-- GridManager field default `gap = 5`. -/
def gap : ℤ := 5

/-- Line 513-515: the cache key, each viewport dimension rounded to the
nearest 10 px (`round(v / 10) * 10`). -/
def cacheKey (w h : ℤ) : ℤ × ℤ := (pyRound10 w * 10, pyRound10 h * 10)

/-- Line 522-523: `padded = viewport_dim + gap * 2`. -/
def padded (v : ℤ) : ℤ := v + gap * 2

/-- Line 527: `cols = max(3, floor(padded_width / (min_cell_size + gap)))`. -/
def colsInit (w : ℤ) : ℤ := max 3 ((padded w).fdiv (min_cell_size + gap))

/-- Line 530: `cell_size = floor((padded_width - cols * gap) / cols)`. -/
def cellInit (w : ℤ) : ℤ := (padded w - colsInit w * gap).fdiv (colsInit w)

/-- Lines 533-534: the column count after the minimum-cell-size
adjustment (`cols` is recomputed without the `max 3` clamp when the
fitted cell would be below the minimum). -/
def colsAfterMin (w : ℤ) : ℤ :=
  if cellInit w < min_cell_size then (padded w).fdiv (min_cell_size + gap)
  else colsInit w

/-- Lines 533-535: the cell size after the minimum-cell-size adjustment. -/
def cellAfterMin (w : ℤ) : ℤ :=
  if cellInit w < min_cell_size then min_cell_size else cellInit w

/-- Line 538: `rows = ceil(padded_height / (cell_size + gap))`. -/
def rowsFor (w h : ℤ) : ℤ := ceilDiv (padded h) (cellAfterMin w + gap)

/-- Lines 540-542: ultra-wide correction, `cols = ceil(cols * 1.2)` when
`aspect_ratio > 1.8`; exactly, the ceiling of `cols * 6 / 5` when
`w / h > 9 / 5`, i.e. `9 * h < 5 * w` for positive `h`. -/
def colsFinal (w h : ℤ) : ℤ :=
  if 9 * h < 5 * w then ceilDiv (colsAfterMin w * 6) 5 else colsAfterMin w

/-- A layout result `(cell_size, columns, rows)`. -/
abbrev Layout := ℤ × ℤ × ℤ

/-- Lines 521-545: the cache-miss computation of `calculate_layout`
(algorithm steps 2-8), returning `(cell_size, cols, rows)`. -/
def calcLayout (w h : ℤ) : Layout := (cellAfterMin w, colsFinal w h, rowsFor w h)

/-- The `_layout_cache` dict: association list in insertion order,
oldest entry first. -/
abbrev LayoutCache := List ((ℤ × ℤ) × Layout)

/-- Dict lookup `cache_key in self._layout_cache` / indexing. -/
def cacheLookup (k : ℤ × ℤ) : LayoutCache → Option Layout
  | [] => none
  | (k0, v) :: rest => if k0 = k then some v else cacheLookup k rest

/-- Lines 508-552: `GridManager.calculate_layout`, state-passing over the
layout cache.  On a hit the cached result is returned and the cache is
unchanged; on a miss the result is computed, appended under the
quantized key, and if the cache then exceeds 100 entries its
oldest-inserted entry (the list head) is deleted. -/
def calculate_layout (st : LayoutCache) (w h : ℤ) : Layout × LayoutCache :=
  match cacheLookup (cacheKey w h) st with
  | some v => (v, st)
  | none =>
      let result := calcLayout w h
      let st1 := st ++ [(cacheKey w h, result)]
      let st2 := if 100 < st1.length then st1.tail else st1
      (result, st2)

/-- The cache entry produced for viewport `p` on a cache miss. -/
def entryOf (p : ℤ × ℤ) : (ℤ × ℤ) × Layout := (cacheKey p.1 p.2, calcLayout p.1 p.2)

/-- Run a sequence of `calculate_layout` calls, keeping the final cache. -/
def runLayouts (st : LayoutCache) (inputs : List (ℤ × ℤ)) : LayoutCache :=
  inputs.foldl (fun s p => (calculate_layout s p.1 p.2).2) st

/-- Python `list.pop()`: remove and return the last element. -/
def popLast {α : Type} : List α → Option (α × List α)
  | [] => none
  | [x] => some (x, [])
  | x :: y :: rest =>
      match popLast (y :: rest) with
      | some (z, zs) => some (z, x :: zs)
      | none => none

/-- Lines 564-569: the `while len(selected_images) < total_cells` loop.
`k` indexes the next shuffled copy of the pool to be used when the
working pool empties; `pool` is the current working pool, popped from
its end.  The final `none` branch (an empty refill) is unreachable when
every shuffle is a copy of a non-empty pool. -/
def selectLoop (shuffles : ℕ → List String) : ℕ → List String → ℕ → List String
  | _, _, 0 => []
  | k, pool, n + 1 =>
      match popLast pool with
      | some (img, rest) => img :: selectLoop shuffles k rest n
      | none =>
          match popLast (shuffles k) with
          | some (img, rest) => img :: selectLoop shuffles (k + 1) rest n
          | none => []

/-- Lines 554-571: `GridManager.select_images`.  The shuffled working
pool is created afresh on every call (line 561-562, modelled by
`shuffles 0`); refills inside the loop use the subsequent shuffles. -/
def select_images (available : List String) (shuffles : ℕ → List String)
    (total_cells : ℕ) : List String :=
  if available = [] then []
  else selectLoop shuffles 1 (shuffles 0) total_cells

/-- The concatenation of the reversed shuffled copies `k, k+1, ...`:
the order in which `selectLoop` dispenses images (each copy is consumed
from its end). -/
def shuffleBlocks (shuffles : ℕ → List String) : ℕ → ℕ → List String
  | _, 0 => []
  | k, m + 1 => (shuffles k).reverse ++ shuffleBlocks shuffles (k + 1) m

/-- Lines 492-506: `GridManager.get_cached_images`, state-passing over
the `_image_cache` field.  The filesystem scan is the `scanResult`
parameter (the `islice(..., 0, None, 1)` in the source is the identity
slice).  Returns (returned list, new cache field, whether the scan ran).
The scan runs exactly when the cache field is empty. -/
def get_cached_images (scanResult image_cache : List String) :
    List String × List String × Bool :=
  if image_cache = [] then (scanResult, scanResult, true)
  else (image_cache, image_cache, false)

/-- The data carried by one grid cell `Div` (lines 592-613): the image
path, the cell size, the enumeration index and the animation delay
`idx % (column_count * 2)`. -/
structure GridCell where
  imgPath : String
  cellSize : ℤ
  cellIndex : ℕ
  cellDelay : ℤ
deriving DecidableEq

/-- Lines 573-625: `GridManager.create_grid_cells`, state-passing over
the layout cache.  Computes the layout, requests `columns * rows`
images, and on an empty selection returns empty cells and variables. -/
def create_grid_cells (available : List String) (shuffles : ℕ → List String)
    (st : LayoutCache) (w h : ℤ) :
    (List GridCell × List (String × String)) × LayoutCache :=
  let res := calculate_layout st w h
  let cell_size := res.1.1
  let column_count := res.1.2.1
  let row_count := res.1.2.2
  let total_cells := column_count * row_count
  let selected := select_images available shuffles total_cells.toNat
  if selected = [] then (([], []), res.2)
  else
    let cells := selected.enum.map fun p =>
      { imgPath := p.2, cellSize := cell_size, cellIndex := p.1,
        cellDelay := (p.1 : ℤ).fmod (column_count * 2) : GridCell }
    let layout_vars := [
      ("--cell-size", toString cell_size ++ "px"),
      ("--column-count", toString column_count),
      ("--row-count", toString row_count),
      ("--viewport-width", toString w ++ "px"),
      ("--viewport-height", toString h ++ "px"),
      ("--grid-gap", toString gap ++ "px")]
    ((cells, layout_vars), res.2)

/-! ### Arithmetic facts about the layout computation -/

lemma ceilDiv_pos {a b : ℤ} (ha : 0 < a) (hb : 0 < b) : 1 ≤ ceilDiv a b := by
  unfold ceilDiv
  have := Int.fdiv_neg' (a := -a) (b := b) (by omega) hb
  omega

lemma cellAfterMin_ge (w : ℤ) : min_cell_size ≤ cellAfterMin w := by
  unfold cellAfterMin
  split <;> omega

lemma rowsFor_ge_one (w h : ℤ) (hh : 1 ≤ h) : 1 ≤ rowsFor w h := by
  have hc := cellAfterMin_ge w
  unfold rowsFor padded gap min_cell_size at *
  exact ceilDiv_pos (by omega) (by omega)

lemma colsInit_eq_ediv (w : ℤ) (hw : 272 ≤ w) : colsInit w = padded w / 94 := by
  unfold colsInit padded min_cell_size gap
  rw [Int.fdiv_eq_ediv _ (by norm_num)]
  norm_num
  rw [Int.le_ediv_iff_mul_le (by norm_num)]
  omega

lemma colsInit_ge_three (w : ℤ) : 3 ≤ colsInit w := le_max_left 3 _

lemma cellInit_ge (w : ℤ) (hw : 272 ≤ w) : min_cell_size ≤ cellInit w := by
  have hcols := colsInit_eq_ediv w hw
  have h3 := colsInit_ge_three w
  have hmul : colsInit w * 94 ≤ padded w := by
    rw [hcols]; exact Int.ediv_mul_le (padded w) (by norm_num)
  unfold cellInit min_cell_size gap
  rw [Int.fdiv_eq_ediv _ (by omega)]
  rw [Int.le_ediv_iff_mul_le (by omega)]
  nlinarith

lemma cellAfterMin_eq (w : ℤ) (hw : 272 ≤ w) : cellAfterMin w = cellInit w := by
  unfold cellAfterMin
  rw [if_neg (not_lt.2 (cellInit_ge w hw))]

lemma colsAfterMin_eq (w : ℤ) (hw : 272 ≤ w) : colsAfterMin w = colsInit w := by
  unfold colsAfterMin
  rw [if_neg (not_lt.2 (cellInit_ge w hw))]

lemma coverage_init (w : ℤ) :
    padded w - colsInit w < colsInit w * (cellInit w + gap) := by
  have h3 := colsInit_ge_three w
  have hlt := Int.lt_ediv_add_one_mul_self (padded w - colsInit w * 5)
    (show (0 : ℤ) < colsInit w by omega)
  unfold cellInit gap
  rw [Int.fdiv_eq_ediv _ (by omega)]
  nlinarith

lemma ceilDiv_six_fifths_ge (c : ℤ) (hc : 0 ≤ c) : c ≤ ceilDiv (c * 6) 5 := by
  unfold ceilDiv
  rw [Int.fdiv_eq_ediv _ (by norm_num)]
  have hlt : -(c * 6) / 5 < -c + 1 := by
    rw [Int.ediv_lt_iff_lt_mul (by norm_num)]; omega
  omega

lemma colsAfterMin_nonneg (w : ℤ) (hw : 1 ≤ w) : 0 ≤ colsAfterMin w := by
  have h3 := colsInit_ge_three w
  unfold colsAfterMin
  split
  · exact Int.fdiv_nonneg (by unfold padded gap; omega)
      (by unfold min_cell_size gap; omega)
  · omega

lemma colsFinal_ge_colsAfterMin (w h : ℤ) (hw : 1 ≤ w) :
    colsAfterMin w ≤ colsFinal w h := by
  unfold colsFinal
  split
  · exact ceilDiv_six_fifths_ge _ (colsAfterMin_nonneg w hw)
  · omega

lemma colsFinal_nonneg (w h : ℤ) (hw : 1 ≤ w) : 0 ≤ colsFinal w h :=
  le_trans (colsAfterMin_nonneg w hw) (colsFinal_ge_colsAfterMin w h hw)

/-- C1 (counterexample): the claim that `calculate_layout` always
returns `columns ≥ 3` fails at the positive viewport `(1, 1)`: the
minimum-cell-size adjustment recomputes `cols` without the `max 3`
clamp and yields `columns = 0` (so the coverage inequality
`columns * (cell_size + gap) ≥ width` also fails there). -/
theorem C1_cex :
    (calculate_layout [] 1 1).1 = (89, 0, 1) ∧
      ¬ 3 ≤ (calculate_layout [] 1 1).1.2.1 ∧
      ¬ 1 ≤ (calculate_layout [] 1 1).1.2.1 *
        ((calculate_layout [] 1 1).1.1 + gap) := by
  decide

/-- C1 (amended): for every positive viewport, `calculate_layout`
computes `cell_size ≥ min_cell_size = 89` and `rows ≥ 1`; the bounds
`columns ≥ 3` and coverage within `columns` pixels of the padded width,
`columns * (cell_size + gap) > (width + 10) - columns`, additionally
hold whenever `width ≥ 272` (below that the minimum-cell-size
adjustment may leave as few as 0 columns). -/
theorem C1_layout_bounds (w h : ℤ) (_hw : 1 ≤ w) (hh : 1 ≤ h) :
    min_cell_size ≤ (calcLayout w h).1 ∧ 1 ≤ (calcLayout w h).2.2 ∧
    (272 ≤ w →
      3 ≤ (calcLayout w h).2.1 ∧
      w + 10 - (calcLayout w h).2.1 <
        (calcLayout w h).2.1 * ((calcLayout w h).1 + gap)) := by
  refine ⟨cellAfterMin_ge w, rowsFor_ge_one w h hh, fun h272 => ?_⟩
  have hca := colsAfterMin_eq w h272
  have hce := cellAfterMin_eq w h272
  have h3 := colsInit_ge_three w
  have hcov := coverage_init w
  have hgrow := colsFinal_ge_colsAfterMin w h (by omega)
  constructor
  · show 3 ≤ colsFinal w h
    omega
  · show w + 10 - colsFinal w h < colsFinal w h * (cellAfterMin w + gap)
    have hpw : padded w = w + 10 := by unfold padded gap; ring
    have hcell : (0 : ℤ) ≤ cellAfterMin w + gap := by
      have := cellAfterMin_ge w
      unfold min_cell_size gap at *
      omega
    have hmono : colsAfterMin w * (cellAfterMin w + gap) ≤
        colsFinal w h * (cellAfterMin w + gap) :=
      mul_le_mul_of_nonneg_right hgrow hcell
    rw [hca] at hgrow
    rw [hce, hca] at hmono
    rw [hce]
    linarith [hcov]

/-- C1 (witness): the amended bounds evaluated at viewport
`(1000, 800)`, where the layout is `(96, 10, 9)`. -/
theorem C1_layout_bounds_w :
    min_cell_size ≤ (calcLayout 1000 800).1 ∧
      3 ≤ (calcLayout 1000 800).2.1 := by
  have h := C1_layout_bounds 1000 800 (by decide) (by decide)
  exact ⟨h.1, (h.2.2 (by decide)).1⟩

/-! ### Cache lemmas -/

lemma cacheLookup_cons_none {k : ℤ × ℤ} {x : (ℤ × ℤ) × Layout} {l : LayoutCache}
    (h : cacheLookup k (x :: l) = none) : cacheLookup k l = none := by
  obtain ⟨k0, v⟩ := x
  simp only [cacheLookup] at h
  split at h
  · exact absurd h (by simp)
  · exact h

lemma cacheLookup_append_none {k : ℤ × ℤ} {a b : LayoutCache}
    (h : cacheLookup k a = none) : cacheLookup k (a ++ b) = cacheLookup k b := by
  induction a with
  | nil => rfl
  | cons x rest ih =>
      obtain ⟨k0, v⟩ := x
      by_cases hk : k0 = k
      · simp [cacheLookup, hk] at h
      · simp only [cacheLookup, hk, if_false, List.cons_append] at h ⊢
        exact ih h

lemma cacheLookup_eq_none_of_not_mem {k : ℤ × ℤ} {l : LayoutCache}
    (h : k ∉ l.map Prod.fst) : cacheLookup k l = none := by
  induction l with
  | nil => rfl
  | cons x rest ih =>
      obtain ⟨k0, v⟩ := x
      simp only [List.map_cons, List.mem_cons] at h
      push_neg at h
      simp only [cacheLookup]
      rw [if_neg (Ne.symm h.1)]
      exact ih h.2

lemma cacheLookup_map_entryOf {p : ℤ × ℤ} {l : List (ℤ × ℤ)}
    (hnd : (l.map fun q => cacheKey q.1 q.2).Nodup) (hp : p ∈ l) :
    cacheLookup (cacheKey p.1 p.2) (l.map entryOf) = some (calcLayout p.1 p.2) := by
  induction l with
  | nil => cases hp
  | cons q rest ih =>
      simp only [List.map_cons, List.nodup_cons] at hnd
      rcases List.mem_cons.1 hp with heq | hmem
      · subst heq
        simp [cacheLookup, entryOf]
      · have hne : cacheKey q.1 q.2 ≠ cacheKey p.1 p.2 := by
          intro hcontra
          exact hnd.1 (hcontra ▸ List.mem_map_of_mem _ hmem)
        simp only [List.map_cons, cacheLookup, entryOf]
        rw [if_neg hne]
        exact ih hnd.2 hmem

lemma calculate_layout_hit {st : LayoutCache} {w h : ℤ} {v : Layout}
    (hv : cacheLookup (cacheKey w h) st = some v) :
    calculate_layout st w h = (v, st) := by
  unfold calculate_layout
  rw [hv]

lemma calculate_layout_miss_fst {st : LayoutCache} {w h : ℤ}
    (hv : cacheLookup (cacheKey w h) st = none) :
    (calculate_layout st w h).1 = calcLayout w h := by
  unfold calculate_layout
  rw [hv]

lemma calculate_layout_miss_snd {st : LayoutCache} {w h : ℤ}
    (hv : cacheLookup (cacheKey w h) st = none) :
    (calculate_layout st w h).2 =
      if 100 < st.length + 1 then (st ++ [(cacheKey w h, calcLayout w h)]).tail
      else st ++ [(cacheKey w h, calcLayout w h)] := by
  unfold calculate_layout
  rw [hv]
  simp

lemma lookup_after_miss {st : LayoutCache} {w h : ℤ}
    (hv : cacheLookup (cacheKey w h) st = none) :
    cacheLookup (cacheKey w h) (calculate_layout st w h).2 =
      some (calcLayout w h) := by
  rw [calculate_layout_miss_snd hv]
  split
  · next hlen =>
      cases st with
      | nil => simp at hlen
      | cons x st0 =>
          rw [List.cons_append, List.tail_cons]
          rw [cacheLookup_append_none (cacheLookup_cons_none hv)]
          simp [cacheLookup]
  · rw [cacheLookup_append_none hv]
    simp [cacheLookup]

/-- C2 (counterexample): calling `calculate_layout(272, 100)` first and
then `calculate_layout(268, 100)` returns the cached layout computed for
`(272, 100)` — the two viewports collide on the quantized key
`(270, 100)` — which differs from the cache-free computation for
`(268, 100)`; so the result does not always equal the uncached
computation applied directly to the arguments. -/
theorem C2_cex :
    (calculate_layout (calculate_layout [] 272 100).2 268 100).1 = (89, 4, 2) ∧
      calcLayout 268 100 = (89, 3, 2) ∧
      (calculate_layout (calculate_layout [] 272 100).2 268 100).1 ≠
        calcLayout 268 100 := by
  decide

/-- C2 (amended): calling `calculate_layout(w, h)` twice in succession
returns identical results (result and cache state), after any prior call
sequence; and the returned result equals the cache-free computation for
`(w, h)` whenever the quantized key of `(w, h)` is not already cached
(in particular on an empty cache).  When the quantized key is already
present — possibly from a different viewport that collides under
rounding to the nearest 10 px — the cached value is returned instead. -/
theorem C2_idempotent_and_fresh_correct :
    (∀ (st : LayoutCache) (w h : ℤ),
        calculate_layout (calculate_layout st w h).2 w h =
          calculate_layout st w h) ∧
    (∀ (st : LayoutCache) (w h : ℤ), cacheLookup (cacheKey w h) st = none →
        (calculate_layout st w h).1 = calcLayout w h) := by
  constructor
  · intro st w h
    cases hv : cacheLookup (cacheKey w h) st with
    | some v =>
        rw [calculate_layout_hit hv]
        exact calculate_layout_hit hv
    | none =>
        rw [calculate_layout_hit (lookup_after_miss hv)]
        rw [← Prod.mk.eta (p := calculate_layout st w h)]
        rw [calculate_layout_miss_fst hv]
  · intro st w h hv
    exact calculate_layout_miss_fst hv

/-- C2 (witness): on an empty cache, the first call for `(272, 100)`
computes the cache-free layout, and an immediate second call repeats the
identical result and state. -/
theorem C2_idempotent_and_fresh_correct_w :
    calculate_layout (calculate_layout [] 272 100).2 272 100 =
        calculate_layout [] 272 100 ∧
      (calculate_layout [] 272 100).1 = calcLayout 272 100 :=
  ⟨C2_idempotent_and_fresh_correct.1 [] 272 100,
    C2_idempotent_and_fresh_correct.2 [] 272 100 rfl⟩

lemma runLayouts_nil (st : LayoutCache) : runLayouts st [] = st := rfl

lemma runLayouts_cons (st : LayoutCache) (p : ℤ × ℤ) (rest : List (ℤ × ℤ)) :
    runLayouts st (p :: rest) = runLayouts (calculate_layout st p.1 p.2).2 rest :=
  rfl

lemma runLayouts_append (st : LayoutCache) (a b : List (ℤ × ℤ)) :
    runLayouts st (a ++ b) = runLayouts (runLayouts st a) b := by
  simp [runLayouts, List.foldl_append]

lemma entryOf_fst (p : ℤ × ℤ) : (entryOf p).1 = cacheKey p.1 p.2 := rfl

lemma runLayouts_fresh (inputs : List (ℤ × ℤ)) :
    ∀ st : LayoutCache, st.length + inputs.length ≤ 100 →
      (∀ p ∈ inputs, cacheLookup (cacheKey p.1 p.2) st = none) →
      (inputs.map fun p => cacheKey p.1 p.2).Nodup →
      runLayouts st inputs = st ++ inputs.map entryOf := by
  induction inputs with
  | nil => intro st _ _ _; simp [runLayouts]
  | cons p rest ih =>
      intro st hlen hfresh hnd
      simp only [List.map_cons, List.nodup_cons] at hnd
      simp only [List.length_cons] at hlen
      have hp := hfresh p (List.mem_cons_self p rest)
      rw [runLayouts_cons, calculate_layout_miss_snd hp, if_neg (by omega)]
      have hstep : runLayouts (st ++ [(cacheKey p.1 p.2, calcLayout p.1 p.2)]) rest
          = (st ++ [(cacheKey p.1 p.2, calcLayout p.1 p.2)]) ++ rest.map entryOf := by
        apply ih
        · simp only [List.length_append, List.length_cons, List.length_nil]
          omega
        · intro q hq
          rw [cacheLookup_append_none (hfresh q (List.mem_cons_of_mem _ hq))]
          have hne : cacheKey p.1 p.2 ≠ cacheKey q.1 q.2 := by
            intro hcontra
            exact hnd.1 (hcontra ▸ List.mem_map_of_mem _ hq)
          simp [cacheLookup, hne]
        · exact hnd.2
      rw [hstep]
      simp [entryOf]

/-- C5: the layout cache never exceeds 100 entries; a cache hit leaves
the cache unchanged (eviction is insertion-ordered, FIFO, unaffected by
access frequency); and inserting 101 viewports with pairwise-distinct
quantized keys from an empty cache leaves exactly the 100 most recent
entries: the first-inserted key is evicted (lookup fails) and each of
the other 100 keys is present with its cache-free layout. -/
theorem C5_cache_bound_fifo :
    (∀ (st : LayoutCache) (w h : ℤ), st.length ≤ 100 →
        ((calculate_layout st w h).2).length ≤ 100) ∧
    (∀ (st : LayoutCache) (w h : ℤ) (v : Layout),
        cacheLookup (cacheKey w h) st = some v →
        (calculate_layout st w h).2 = st) ∧
    (∀ (first last : ℤ × ℤ) (mid : List (ℤ × ℤ)), mid.length = 99 →
        ((first :: (mid ++ [last])).map fun p => cacheKey p.1 p.2).Nodup →
        runLayouts [] (first :: (mid ++ [last])) = (mid ++ [last]).map entryOf ∧
        (runLayouts [] (first :: (mid ++ [last]))).length = 100 ∧
        cacheLookup (cacheKey first.1 first.2)
          (runLayouts [] (first :: (mid ++ [last]))) = none ∧
        (∀ p ∈ mid ++ [last],
          cacheLookup (cacheKey p.1 p.2)
            (runLayouts [] (first :: (mid ++ [last]))) =
            some (calcLayout p.1 p.2))) := by
  refine ⟨?_, ?_, ?_⟩
  · intro st w h hst
    cases hv : cacheLookup (cacheKey w h) st with
    | some v => rw [calculate_layout_hit hv]; exact hst
    | none =>
        rw [calculate_layout_miss_snd hv]
        split
        · next hlen =>
            rw [List.length_tail]
            simp only [List.length_append, List.length_cons, List.length_nil]
            omega
        · next hlen =>
            simp only [List.length_append, List.length_cons, List.length_nil]
            omega
  · intro st w h v hv
    rw [calculate_layout_hit hv]
  · intro first last mid hmid hnd
    have hkey : ((first :: (mid ++ [last])).map fun p => cacheKey p.1 p.2)
        = (cacheKey first.1 first.2) ::
          ((mid.map fun p => cacheKey p.1 p.2) ++ [cacheKey last.1 last.2]) := by
      simp
    rw [hkey, List.nodup_cons] at hnd
    obtain ⟨hfirst_notin, hnd2⟩ := hnd
    rw [List.nodup_append] at hnd2
    obtain ⟨hnd_mid, _, hdisj⟩ := hnd2
    have hlast_notin : cacheKey last.1 last.2 ∉ mid.map fun p => cacheKey p.1 p.2 :=
      fun hmem => hdisj hmem (by simp)
    -- run the first 100 fresh inserts, none of which trigger eviction
    have hfrontnd : ((first :: mid).map fun p => cacheKey p.1 p.2).Nodup := by
      rw [List.map_cons, List.nodup_cons]
      refine ⟨fun hmem => hfirst_notin (by simp [hmem]), hnd_mid⟩
    have hfront : runLayouts [] (first :: mid) = (first :: mid).map entryOf := by
      have := runLayouts_fresh (first :: mid) []
      simp only [List.nil_append] at this
      exact this (by simp [hmid]) (by intro q _; rfl) hfrontnd
    have hsplit : first :: (mid ++ [last]) = (first :: mid) ++ [last] := by simp
    have hfrontkeys : ((first :: mid).map entryOf).map Prod.fst
        = (first :: mid).map fun p => cacheKey p.1 p.2 := by
      rw [List.map_map]
      rfl
    have hlastfresh : cacheLookup (cacheKey last.1 last.2)
        (runLayouts [] (first :: mid)) = none := by
      rw [hfront]
      apply cacheLookup_eq_none_of_not_mem
      rw [hfrontkeys, List.map_cons]
      intro hmem
      rcases List.mem_cons.1 hmem with heq | hmem2
      · exact hfirst_notin (by simp [heq.symm])
      · exact hlast_notin hmem2
    have hrun : runLayouts [] (first :: (mid ++ [last]))
        = (mid ++ [last]).map entryOf := by
      rw [hsplit, runLayouts_append, hfront]
      rw [show runLayouts ((first :: mid).map entryOf) [last]
          = (calculate_layout ((first :: mid).map entryOf) last.1 last.2).2 from rfl]
      rw [calculate_layout_miss_snd (hfront ▸ hlastfresh)]
      rw [if_pos (by simp [hmid])]
      simp [entryOf]
    refine ⟨hrun, ?_, ?_, ?_⟩
    · rw [hrun]; simp [hmid]
    · rw [hrun]
      apply cacheLookup_eq_none_of_not_mem
      rw [show ((mid ++ [last]).map entryOf).map Prod.fst
          = (mid ++ [last]).map fun p => cacheKey p.1 p.2 by
        rw [List.map_map]
        rfl]
      rw [List.map_append]
      intro hmem
      rcases List.mem_append.1 hmem with hmem2 | hmem2
      · exact hfirst_notin (List.mem_append_left _ hmem2)
      · exact hfirst_notin (List.mem_append_right _ hmem2)
    · intro p hp
      rw [hrun]
      apply cacheLookup_map_entryOf _ hp
      rw [List.map_append, List.nodup_append]
      exact ⟨hnd_mid, List.nodup_singleton _, hdisj⟩

/-- C5 (witness): 101 viewports with pairwise-distinct quantized keys,
run from an empty cache, leave exactly 100 entries. -/
theorem C5_cache_bound_fifo_w :
    (runLayouts [] (((0 : ℤ), (0 : ℤ)) ::
        (((List.range 99).map fun (i : ℕ) => ((10 * (i : ℤ)), (1000 : ℤ))) ++
          [((5000 : ℤ), (1000 : ℤ))]))).length = 100 :=
  ((C5_cache_bound_fifo.2.2 (0, 0) (5000, 1000)
      ((List.range 99).map fun (i : ℕ) => ((10 * (i : ℤ)), (1000 : ℤ)))
      (by rw [List.length_map, List.length_range]) (by decide)).2.1)

/-! ### Selector lemmas -/

lemma popLast_concat {α : Type} (l : List α) (x : α) :
    popLast (l ++ [x]) = some (x, l) := by
  induction l with
  | nil => rfl
  | cons a rest ih =>
      cases rest with
      | nil => rfl
      | cons b rest2 =>
          have hstep : popLast ((a :: b :: rest2) ++ [x])
              = match popLast ((b :: rest2) ++ [x]) with
                | some (z, zs) => some (z, a :: zs)
                | none => none := rfl
          rw [hstep, ih]

lemma selectLoop_take (shuffles : ℕ → List String) (pool : List String) :
    ∀ (k n : ℕ), n ≤ pool.length →
      selectLoop shuffles k pool n = pool.reverse.take n := by
  induction pool using List.reverseRecOn with
  | nil =>
      intro k n hn
      cases n with
      | zero => rfl
      | succ m => simp at hn
  | append_singleton l x ih =>
      intro k n hn
      cases n with
      | zero => rfl
      | succ m =>
          simp only [selectLoop, popLast_concat]
          rw [ih k m (by simp only [List.length_append, List.length_cons,
            List.length_nil] at hn; omega)]
          simp

lemma selectLoop_drain (shuffles : ℕ → List String) (pool : List String) :
    ∀ (k n : ℕ),
      selectLoop shuffles k pool (pool.length + n)
        = pool.reverse ++ selectLoop shuffles k [] n := by
  induction pool using List.reverseRecOn with
  | nil => intro k n; simp
  | append_singleton l x ih =>
      intro k n
      rw [show (l ++ [x]).length + n = (l.length + n) + 1 by
        simp only [List.length_append, List.length_cons, List.length_nil]; omega]
      simp only [selectLoop, popLast_concat]
      rw [ih k n]
      simp

lemma selectLoop_refill (shuffles : ℕ → List String) (k n : ℕ)
    (hne : shuffles k ≠ []) :
    selectLoop shuffles k [] n = selectLoop shuffles (k + 1) (shuffles k) n := by
  cases n with
  | zero => rfl
  | succ m =>
      obtain ⟨l, x, hlx⟩ : ∃ l x, shuffles k = l ++ [x] := by
        rcases List.eq_nil_or_concat' (shuffles k) with h | ⟨l, x, h⟩
        · exact absurd h hne
        · exact ⟨l, x, h⟩
      simp only [selectLoop, popLast, hlx, popLast_concat]

lemma selectLoop_length (shuffles : ℕ → List String)
    (hne : ∀ i, shuffles i ≠ []) :
    ∀ (n k : ℕ) (pool : List String),
      (selectLoop shuffles k pool n).length = n := by
  intro n
  induction n with
  | zero => intro k pool; rfl
  | succ m ih =>
      intro k pool
      cases hp : popLast pool with
      | some pr =>
          obtain ⟨img, rest⟩ := pr
          simp only [selectLoop, hp, List.length_cons, ih]
      | none =>
          cases hq : popLast (shuffles k) with
          | some pr =>
              obtain ⟨img, rest⟩ := pr
              simp only [selectLoop, hp, hq, List.length_cons, ih]
          | none =>
              exfalso
              rcases List.eq_nil_or_concat' (shuffles k) with h | ⟨l, x, h⟩
              · exact hne k h
              · rw [h, popLast_concat] at hq; cases hq

lemma selectLoop_blocks (shuffles : ℕ → List String) (N : ℕ)
    (hlen : ∀ i, (shuffles i).length = N) (hne : ∀ i, shuffles i ≠ []) :
    ∀ m k, selectLoop shuffles (k + 1) (shuffles k) ((m + 1) * N)
        = shuffleBlocks shuffles k (m + 1) := by
  intro m
  induction m with
  | zero =>
      intro k
      rw [show 1 * N = (shuffles k).length + 0 by rw [hlen]; omega]
      rw [selectLoop_drain]
      simp [shuffleBlocks, selectLoop]
  | succ m2 ih =>
      intro k
      rw [show (m2 + 1 + 1) * N = (shuffles k).length + (m2 + 1) * N by
        rw [hlen]; ring]
      rw [selectLoop_drain, selectLoop_refill shuffles (k + 1) _ (hne (k + 1))]
      rw [ih (k + 1)]
      simp [shuffleBlocks]

lemma shuffleBlocks_drop_take (shuffles : ℕ → List String) (N : ℕ)
    (hlen : ∀ i, (shuffles i).length = N) :
    ∀ j m k, j < m →
      ((shuffleBlocks shuffles k m).drop (j * N)).take N
        = (shuffles (k + j)).reverse := by
  intro j
  induction j with
  | zero =>
      intro m k hj
      cases m with
      | zero => omega
      | succ m2 =>
          simp only [shuffleBlocks, Nat.zero_mul, List.drop_zero, Nat.add_zero]
          rw [List.take_left' (by simp [hlen])]
  | succ j2 ih =>
      intro m k hj
      cases m with
      | zero => omega
      | succ m2 =>
          simp only [shuffleBlocks]
          rw [show (j2 + 1) * N = N + j2 * N by ring]
          rw [← List.drop_drop, List.drop_left' (by simp [hlen])]
          have hrec := ih m2 (k + 1) (by omega)
          rwa [show k + 1 + j2 = k + (j2 + 1) by omega] at hrec

lemma shuffleBlocks_subset {available : List String}
    (shuffles : ℕ → List String) (hperm : ∀ i, (shuffles i).Perm available) :
    ∀ m k x, x ∈ shuffleBlocks shuffles k m → x ∈ available := by
  intro m
  induction m with
  | zero => intro k x hx; cases hx
  | succ m2 ih =>
      intro k x hx
      rcases List.mem_append.1 hx with hx2 | hx2
      · exact (hperm k).mem_iff.1 (List.mem_reverse.1 hx2)
      · exact ih (k + 1) x hx2

lemma shuffleBlocks_count (shuffles : ℕ → List String) (a : String)
    (h1 : ∀ i, (shuffles i).count a = 1) :
    ∀ m k, (shuffleBlocks shuffles k m).count a = m := by
  intro m
  induction m with
  | zero => intro k; rfl
  | succ m2 ih =>
      intro k
      simp only [shuffleBlocks, List.count_append, List.count_reverse, h1, ih]
      omega

lemma select_images_pos (available : List String) (shuffles : ℕ → List String)
    (hne : available ≠ []) (t : ℕ) :
    select_images available shuffles t = selectLoop shuffles 1 (shuffles 0) t := by
  simp [select_images, hne]

lemma shuffles_ne_nil {available : List String} {shuffles : ℕ → List String}
    (hne : available ≠ []) (hperm : ∀ i, (shuffles i).Perm available) :
    ∀ i, shuffles i ≠ [] := by
  intro i
  have hl : (shuffles i).length = available.length := (hperm i).length_eq
  have hpos : 0 < available.length := List.length_pos.2 hne
  exact List.ne_nil_of_length_pos (by omega)

lemma select_images_take (available : List String) (shuffles : ℕ → List String)
    (hne : available ≠ []) (hperm : ∀ i, (shuffles i).Perm available)
    (k : ℕ) (hk : k ≤ available.length) :
    select_images available shuffles k = (shuffles 0).reverse.take k := by
  rw [select_images_pos available shuffles hne]
  exact selectLoop_take shuffles (shuffles 0) 1 k (by rw [(hperm 0).length_eq]; omega)

/-- C3 (counterexample): the shuffle queue does not persist across
`select_images` calls — each call builds and shuffles a fresh pool — so
two consecutive calls with `k1 + k2 ≤ pool size` need not return
distinct identifiers: with pool `["a", "b"]` and the identity
permutation chosen by both calls, `select_images 1` twice returns
`["b"]` twice, and the combined two identifiers are not pairwise
distinct. -/
theorem C3_cex :
    select_images ["a", "b"] (fun _ => ["a", "b"]) 1 = ["b"] ∧
      ¬ ((select_images ["a", "b"] (fun _ => ["a", "b"]) 1 ++
          select_images ["a", "b"] (fun _ => ["a", "b"]) 1).Nodup) := by
  decide

/-- C3 (amended): the shuffle queue is local to a single `select_images`
call: it is created and shuffled at the start of the call and refilled
with a fresh permutation whenever it empties mid-call.  Within one call,
the dispensing primitive hands out the pool in whole shuffled rounds:
for every pool of size `N` (distinct identifiers), every permutation
oracle, and every `j < m`, the `j`-th aligned span of `N` consecutive
pops inside a call requesting `m * N` images is a permutation of the
full pool, so each image is dispensed exactly once per round.  Distinctness
does not extend across two calls. -/
theorem C3_rounds (available : List String) (shuffles : ℕ → List String)
    (hne : available ≠ []) (hperm : ∀ i, (shuffles i).Perm available) :
    ∀ m j, j < m →
      (((select_images available shuffles (m * available.length)).drop
          (j * available.length)).take available.length).Perm available := by
  intro m j hj
  have hlen : ∀ i, (shuffles i).length = available.length :=
    fun i => (hperm i).length_eq
  have hnn := shuffles_ne_nil hne hperm
  cases m with
  | zero => omega
  | succ m2 =>
      rw [select_images_pos available shuffles hne]
      rw [show (1 : ℕ) = 0 + 1 from rfl]
      rw [selectLoop_blocks shuffles available.length hlen hnn m2 0]
      rw [shuffleBlocks_drop_take shuffles available.length hlen j (m2 + 1) 0 hj]
      exact ((shuffles (0 + j)).reverse_perm).trans (hperm (0 + j))

/-- C3 (witness): pool `["a", "b", "c"]`, identity shuffles, one call for
`2 * 3` images: the second aligned span of 3 pops is a permutation of
the pool. -/
theorem C3_rounds_w :
    (((select_images ["a", "b", "c"] (fun _ => ["a", "b", "c"]) 6).drop
        3).take 3).Perm ["a", "b", "c"] := by
  have h := C3_rounds ["a", "b", "c"] (fun _ => ["a", "b", "c"])
    (by decide) (fun i => List.Perm.refl _) 2 1 (by decide)
  simpa using h

/-- C4: for a non-empty pool of distinct identifiers and every
permutation oracle, `select_images N` (with `N` the pool size) returns a
permutation of the full pool, and `select_images k` for any `k ≤ N`
returns exactly `k` pairwise-distinct identifiers drawn from the pool. -/
theorem C4_exhaustion (available : List String) (shuffles : ℕ → List String)
    (hne : available ≠ []) (hnd : available.Nodup)
    (hperm : ∀ i, (shuffles i).Perm available) :
    (select_images available shuffles available.length).Perm available ∧
    ∀ k, k ≤ available.length →
      (select_images available shuffles k).length = k ∧
      (select_images available shuffles k).Nodup ∧
      ∀ x ∈ select_images available shuffles k, x ∈ available := by
  have hrev : ∀ k, k ≤ available.length →
      select_images available shuffles k = (shuffles 0).reverse.take k :=
    fun k hk => select_images_take available shuffles hne hperm k hk
  constructor
  · rw [hrev available.length le_rfl]
    rw [List.take_of_length_le (by simp [(hperm 0).length_eq])]
    exact ((shuffles 0).reverse_perm).trans (hperm 0)
  · intro k hk
    rw [hrev k hk]
    refine ⟨?_, ?_, ?_⟩
    · simp only [List.length_take, List.length_reverse, (hperm 0).length_eq]
      omega
    · exact ((List.take_sublist _ _).nodup
        (List.nodup_reverse.2 ((hperm 0).nodup_iff.2 hnd)))
    · intro x hx
      exact (hperm 0).mem_iff.1 (List.mem_reverse.1 (List.take_subset _ _ hx))

/-- C4 (witness): the exhaustion law evaluated on the pool
`["a", "b", "c"]` with identity shuffles. -/
theorem C4_exhaustion_w :
    (select_images ["a", "b", "c"] (fun _ => ["a", "b", "c"]) 3).Perm
      ["a", "b", "c"] :=
  (C4_exhaustion ["a", "b", "c"] (fun _ => ["a", "b", "c"])
    (by decide) (by decide) (fun i => List.Perm.refl _)).1

/-! ### Grid assembly -/

lemma select_images_zero (available : List String) (shuffles : ℕ → List String) :
    select_images available shuffles 0 = [] := by
  unfold select_images
  split <;> rfl

lemma create_grid_cells_emptySel (available : List String)
    (shuffles : ℕ → List String) (st : LayoutCache) (w h : ℤ)
    (hsel : select_images available shuffles
      ((calculate_layout st w h).1.2.1 * (calculate_layout st w h).1.2.2).toNat
      = []) :
    (create_grid_cells available shuffles st w h).1 = ([], []) := by
  simp only [create_grid_cells]
  rw [if_pos hsel]

lemma create_grid_cells_eq (available : List String)
    (shuffles : ℕ → List String) (st st2 : LayoutCache) (w h : ℤ)
    (cell cols rows : ℤ)
    (hlay : calculate_layout st w h = ((cell, cols, rows), st2))
    (hsel : select_images available shuffles (cols * rows).toNat ≠ []) :
    (create_grid_cells available shuffles st w h).1.1 =
      (select_images available shuffles (cols * rows).toNat).enum.map
        fun p => { imgPath := p.2, cellSize := cell, cellIndex := p.1,
                   cellDelay := (p.1 : ℤ).fmod (cols * 2) : GridCell } := by
  simp only [create_grid_cells, hlay]
  rw [if_neg hsel]

/-- C6: with an empty image pool, `select_images` returns the empty
sequence for every requested count, and `create_grid_cells` returns an
empty cell list and an empty variable mapping for every positive
viewport; both are total (the empty pool is signalled by empty results,
not an error). -/
theorem C6_empty_pool (shuffles : ℕ → List String) (t : ℕ)
    (st : LayoutCache) (w h : ℤ) (_hw : 1 ≤ w) (_hh : 1 ≤ h) :
    select_images [] shuffles t = [] ∧
    (create_grid_cells [] shuffles st w h).1 = ([], []) := by
  refine ⟨rfl, ?_⟩
  exact create_grid_cells_emptySel [] shuffles st w h rfl

/-- C6 (witness): the empty-pool behaviour at `total_count = 5` and
viewport `(100, 100)`. -/
theorem C6_empty_pool_w :
    select_images [] (fun _ => []) 5 = [] ∧
      (create_grid_cells [] (fun _ => []) [] 100 100).1 = ([], []) :=
  C6_empty_pool (fun _ => []) 5 [] 100 100 (by decide) (by decide)

/-- C7 (counterexample): when the scan result is empty, the memoized
cache stays empty and the very next `get_cached_images` call scans the
content source again, contradicting the claim that every subsequent call
avoids re-scanning for every possible scan result. -/
theorem C7_cex :
    (get_cached_images [] (get_cached_images [] []).2.1).2.2 ≠ false := by
  decide

/-- C7 (amended): the first `get_cached_images` call scans and stores
the scan result; when the scan result is non-empty, every subsequent
call returns the memoized sequence without scanning again; when the scan
result is empty, the cache remains empty (the guard `if not
self._image_cache` cannot distinguish "never scanned" from "scanned and
found nothing") and each call re-scans. -/
theorem C7_memoization (scanResult : List String) :
    get_cached_images scanResult [] = (scanResult, scanResult, true) ∧
    (scanResult ≠ [] →
      get_cached_images scanResult (get_cached_images scanResult []).2.1
        = (scanResult, scanResult, false)) ∧
    (scanResult = [] →
      (get_cached_images scanResult
        (get_cached_images scanResult []).2.1).2.2 = true) := by
  refine ⟨rfl, fun hne => ?_, fun hnil => ?_⟩
  · simp [get_cached_images, hne]
  · subst hnil; rfl

/-- C7 (witness): a one-image scan result is memoized by the first call
and returned by the second call without re-scanning. -/
theorem C7_memoization_w :
    get_cached_images ["a"] (get_cached_images ["a"] []).2.1
      = (["a"], ["a"], false) :=
  (C7_memoization ["a"]).2.1 (by decide)

/-- The concrete three-image pool of the end-to-end scenario. -/
def demoPool : List String := ["a.webp", "b.webp", "c.webp"]

/-- C9: end-to-end scenario with pool `["a.webp", "b.webp", "c.webp"]`,
`min_cell_size = 89`, `gap = 5`, empty cache: `calculate_layout(1000,
800)` returns `(cell_size, columns, rows) = (96, 10, 9)`, and
`create_grid_cells(1000, 800)` returns exactly 90 cell assignments at
positions `0..89`, each carrying one of the 3 pool identifiers, with
`"a.webp"` appearing at least 30 times — for every permutation oracle. -/
theorem C9_scenario (shuffles : ℕ → List String)
    (hperm : ∀ i, (shuffles i).Perm demoPool) :
    (calculate_layout [] 1000 800).1 = (96, 10, 9) ∧
    ((create_grid_cells demoPool shuffles [] 1000 800).1.1).length = 90 ∧
    ((create_grid_cells demoPool shuffles [] 1000 800).1.1).map
      GridCell.cellIndex = List.range 90 ∧
    (∀ c ∈ (create_grid_cells demoPool shuffles [] 1000 800).1.1,
      c.imgPath ∈ demoPool) ∧
    30 ≤ (((create_grid_cells demoPool shuffles [] 1000 800).1.1).map
      GridCell.imgPath).count "a.webp" := by
  have hne : demoPool ≠ [] := by decide
  have hnn := shuffles_ne_nil hne hperm
  have hlay : calculate_layout [] 1000 800
      = ((96, 10, 9), [((1000, 800), (96, 10, 9))]) := by decide
  have hsel_len : (select_images demoPool shuffles 90).length = 90 := by
    rw [select_images_pos demoPool shuffles hne]
    exact selectLoop_length shuffles hnn 90 1 (shuffles 0)
  have hsel_ne : select_images demoPool shuffles 90 ≠ [] := by
    intro hnil
    rw [hnil] at hsel_len
    simp at hsel_len
  have hlen3 : ∀ i, (shuffles i).length = demoPool.length :=
    fun i => (hperm i).length_eq
  have hsel_blocks : select_images demoPool shuffles 90
      = shuffleBlocks shuffles 0 30 := by
    rw [select_images_pos demoPool shuffles hne]
    have hb := selectLoop_blocks shuffles demoPool.length hlen3 hnn 29 0
    exact hb
  have hcells := create_grid_cells_eq demoPool shuffles []
    [((1000, 800), (96, 10, 9))] 1000 800 96 10 9 hlay
    (by rw [show ((10 : ℤ) * 9).toNat = 90 from rfl]; exact hsel_ne)
  rw [show ((10 : ℤ) * 9).toNat = 90 from rfl] at hcells
  refine ⟨by rw [hlay], ?_, ?_, ?_, ?_⟩
  · rw [hcells]
    simp [List.enum_length, hsel_len]
  · rw [hcells, List.map_map]
    show (select_images demoPool shuffles 90).enum.map Prod.fst = List.range 90
    rw [List.enum_map_fst, hsel_len]
  · intro c hc
    rw [hcells] at hc
    obtain ⟨p, hp, hcp⟩ := List.mem_map.1 hc
    have hsnd : p.2 ∈ select_images demoPool shuffles 90 := by
      have hm := List.mem_map_of_mem Prod.snd hp
      rwa [List.enum_map_snd] at hm
    rw [hsel_blocks] at hsnd
    have himg : c.imgPath = p.2 := by rw [← hcp]
    rw [himg]
    exact shuffleBlocks_subset shuffles hperm 30 0 p.2 hsnd
  · have hmap : ((create_grid_cells demoPool shuffles [] 1000 800).1.1).map
        GridCell.imgPath = select_images demoPool shuffles 90 := by
      rw [hcells, List.map_map]
      show (select_images demoPool shuffles 90).enum.map Prod.snd
        = select_images demoPool shuffles 90
      rw [List.enum_map_snd]
    rw [hmap, hsel_blocks]
    rw [shuffleBlocks_count shuffles "a.webp"
      (fun i => by rw [(hperm i).count_eq "a.webp"]; decide) 30 0]

/-- C9 (witness): the scenario evaluated with identity shuffles. -/
theorem C9_scenario_w :
    ((create_grid_cells demoPool (fun _ => demoPool) [] 1000 800).1.1).length
      = 90 :=
  (C9_scenario (fun _ => demoPool) (fun _ => List.Perm.refl _)).2.1

/-! ### Division-safety -/

lemma cacheLookup_some_mem {k : ℤ × ℤ} {st : LayoutCache} {v : Layout}
    (h : cacheLookup k st = some v) : ∃ kk, (kk, v) ∈ st := by
  induction st with
  | nil => cases h
  | cons x rest ih =>
      obtain ⟨k0, v0⟩ := x
      by_cases hk : k0 = k
      · simp only [cacheLookup, hk, if_pos] at h
        have hv := Option.some.inj h
        exact ⟨k0, by rw [← hv]; exact List.mem_cons_self _ _⟩
      · simp only [cacheLookup, hk, if_false] at h
        obtain ⟨kk, hkk⟩ := ih h
        exact ⟨kk, List.mem_cons_of_mem _ hkk⟩

lemma calculate_layout_from_calcLayout (st : LayoutCache) (w h : ℤ)
    (hw : 1 ≤ w) (hh : 1 ≤ h)
    (hst : ∀ kv ∈ st, ∃ pw ph : ℤ, 1 ≤ pw ∧ 1 ≤ ph ∧ kv.2 = calcLayout pw ph) :
    ∃ pw ph : ℤ, 1 ≤ pw ∧ 1 ≤ ph ∧
      (calculate_layout st w h).1 = calcLayout pw ph := by
  cases hv : cacheLookup (cacheKey w h) st with
  | some v =>
      rw [calculate_layout_hit hv]
      obtain ⟨kk, hkk⟩ := cacheLookup_some_mem hv
      obtain ⟨pw, ph, hpw, hph, hcalc⟩ := hst (kk, v) hkk
      exact ⟨pw, ph, hpw, hph, hcalc⟩
  | none =>
      exact ⟨w, h, hw, hh, calculate_layout_miss_fst hv⟩

/-- C10: no division or modulus by zero is reachable.  The divisor of
the cell-size computation, `colsInit`, is clamped to at least 3 for
every viewport; the returned column count is never negative; whenever
`create_grid_cells` actually builds cells (so the per-cell modulus
`idx % (column_count * 2)` is evaluated) the modulus `column_count * 2`
is positive; and `column_count = 0` forces `total_cells = 0`, an empty
selection, and the early empty return of `create_grid_cells`. -/
theorem C10_division_safety (w h : ℤ) (hw : 1 ≤ w) (hh : 1 ≤ h)
    (available : List String) (shuffles : ℕ → List String) (st : LayoutCache)
    (hst : ∀ kv ∈ st, ∃ pw ph : ℤ, 1 ≤ pw ∧ 1 ≤ ph ∧ kv.2 = calcLayout pw ph) :
    3 ≤ colsInit w ∧
    0 ≤ (calculate_layout st w h).1.2.1 ∧
    ((create_grid_cells available shuffles st w h).1.1 ≠ [] →
      0 < (calculate_layout st w h).1.2.1 * 2) ∧
    ((calculate_layout st w h).1.2.1 = 0 →
      (create_grid_cells available shuffles st w h).1 = ([], [])) := by
  obtain ⟨pw, ph, hpw, hph, hcalc⟩ :=
    calculate_layout_from_calcLayout st w h hw hh hst
  have hcols : 0 ≤ (calculate_layout st w h).1.2.1 := by
    rw [hcalc]
    exact colsFinal_nonneg pw ph hpw
  have hzero : (calculate_layout st w h).1.2.1 = 0 →
      (create_grid_cells available shuffles st w h).1 = ([], []) := by
    intro h0
    apply create_grid_cells_emptySel
    rw [h0]
    rw [show ((0 : ℤ) * (calculate_layout st w h).1.2.2).toNat = 0 by simp]
    exact select_images_zero available shuffles
  refine ⟨colsInit_ge_three w, hcols, ?_, hzero⟩
  intro hcne
  by_cases h0 : (calculate_layout st w h).1.2.1 = 0
  · exfalso
    apply hcne
    have := hzero h0
    calc (create_grid_cells available shuffles st w h).1.1
        = (([] : List GridCell), ([] : List (String × String))).1 := by rw [this]
      _ = [] := rfl
  · omega

/-- C10 (witness): the division-safety facts at viewport `(1, 1)` (where
the returned column count is in fact 0) with an empty pool. -/
theorem C10_division_safety_w :
    3 ≤ colsInit 1 ∧ 0 ≤ (calculate_layout [] 1 1).1.2.1 := by
  have h := C10_division_safety 1 1 (by decide) (by decide) []
    (fun _ => []) [] (by simp)
  exact ⟨h.1, h.2.1⟩

/-! ### Ultra-wide correction -/

lemma ceilDiv_five_eq_ceil (a : ℤ) : ceilDiv a 5 = ⌈(a : ℚ) / 5⌉ := by
  unfold ceilDiv
  rw [Int.fdiv_eq_ediv _ (by norm_num)]
  have hfl := Rat.floor_intCast_div_natCast (-a) 5
  have hcast : (((-a : ℤ)) : ℚ) / ((5 : ℕ) : ℚ) = -((a : ℚ) / 5) := by
    push_cast
    ring
  rw [hcast, Int.floor_neg] at hfl
  have h5 : ((5 : ℕ) : ℤ) = 5 := by norm_num
  rw [h5] at hfl
  omega

/-- C8: whenever the aspect ratio `w / h` exceeds `1.8 = 9/5`, the
returned column count equals the ceiling of `columns_before * 1.2`
(exactly, `⌈columns_before * (6 / 5)⌉`), where `columns_before =
colsAfterMin w` is the column count after the minimum-cell-size
adjustment; the correction is applied after that adjustment and changes
neither the returned `cell_size` (still `cellAfterMin w`) nor `rows`
(still `rowsFor w h`, computed from the pre-correction cell size). -/
theorem C8_ultrawide (w h : ℤ) (hh : 1 ≤ h)
    (hratio : (9 : ℚ) / 5 < (w : ℚ) / (h : ℚ)) :
    (calcLayout w h).2.1 = ⌈(colsAfterMin w : ℚ) * (6 / 5)⌉ ∧
    (calcLayout w h).1 = cellAfterMin w ∧
    (calcLayout w h).2.2 = rowsFor w h := by
  have hq : (0 : ℚ) < (h : ℚ) := by
    have h0 : (0 : ℤ) < h := by omega
    exact_mod_cast h0
  have hint : 9 * h < 5 * w := by
    rw [div_lt_div_iff₀ (by norm_num) hq] at hratio
    have hint2 : 9 * h < w * 5 := by exact_mod_cast hratio
    omega
  refine ⟨?_, rfl, rfl⟩
  show colsFinal w h = _
  unfold colsFinal
  rw [if_pos hint, ceilDiv_five_eq_ceil]
  congr 1
  push_cast
  ring

/-- C8 (witness): at viewport `(3840, 1080)` (aspect ratio about 3.56)
the corrected column count is the ceiling of `1.2` times the
pre-correction count. -/
theorem C8_ultrawide_w :
    (calcLayout 3840 1080).2.1 = ⌈(colsAfterMin 3840 : ℚ) * (6 / 5)⌉ :=
  (C8_ultrawide 3840 1080 (by norm_num) (by norm_num)).1


end GridBG
